import Mathlib

/-!
Verification of the repeated-block detector of `traceMap` (`src/data.py`,
class `TraceDataProcessor`).

The trace data frame is modelled as a list of events; the core only reads the
"Kernel Name" and "Duration (us)" columns, addressed by row position.
Durations are modelled over `ℚ` (the verified claims only concern table
structure and counts, never float rounding); where a numeric summary value is
irrational (the Bessel-corrected standard deviation in `block_metadata`) it is
kept as a symbolic constructor so that every definition stays executable.

Python-specific conventions carried over:
  * `%` on Python ints with positive modulus agrees with `Int.emod`;
  * `pow(base, e, mod)` with a negative exponent takes a modular inverse
    (`pythonPowMod` below); in the detector this is reachable only for
    `min_block_length = 0` (block length 0);
  * Python dicts iterate in key-insertion order, so the hash table and the
    per-bucket sequence table are modelled as association lists to which new
    keys are appended at the end (`groupByKey`);
  * `sorted` on a list of naturals returns the unique `≤`-sorted permutation,
    modelled by `List.insertionSort`.
-/

/-- One row of the trace data frame: the two columns the core reads. -/
structure Event where
  kernelName : String
  duration : Rat
deriving DecidableEq

/-- The dictionary returned by `find_repeated_block` on success. -/
structure BlockInfo where
  length : Nat
  occurrences : List Nat
  kernelSequence : List String
  score : Nat
  occurrenceCount : Nat
  targetOccurrences : Option Nat
  occurrenceDiff : Option Nat
deriving DecidableEq

/-- `_encode_kernel_names`: walk the names, assigning `len(mapping) + 1` to each
name on first sight; returns the encoded list and the final name-to-token map
(an association list in insertion order, like the Python dict). -/
def lookupName (name : String) : List (String × Nat) → Option Nat
  | [] => none
  | (k, v) :: rest => if k = name then some v else lookupName name rest

def encodeList : List String → List (String × Nat) → List Nat × List (String × Nat)
  | [], m => ([], m)
  | name :: rest, m =>
    match lookupName name m with
    | some t =>
      let r := encodeList rest m
      (t :: r.1, r.2)
    | none =>
      let r := encodeList rest (m ++ [(name, m.length + 1)])
      ((m.length + 1) :: r.1, r.2)

def encode_kernel_names (names : List String) : List Nat × List (String × Nat) :=
  encodeList names []

/-- `_select_non_overlapping`, inner loop: `last_end` starts at `-1`; an index
is kept iff `idx >= last_end`, which then advances `last_end` to
`idx + block_length`. -/
def selectAux (blockLength : Nat) : List Nat → Int → List Nat
  | [], _ => []
  | idx :: rest, lastEnd =>
    if lastEnd ≤ (idx : Int) then idx :: selectAux blockLength rest ((idx : Int) + blockLength)
    else selectAux blockLength rest lastEnd

/-- `_select_non_overlapping(indices, block_length)`: Python sorts the indices
first (`sorted(indices)`); on naturals any sort yields the same list. -/
def select_non_overlapping (indices : List Nat) (blockLength : Nat) : List Nat :=
  selectAux blockLength (List.insertionSort (· ≤ ·) indices) (-1)

/-- `mod = 1 << 64`. -/
def MOD : Int := 2 ^ 64

/-- `base = 1_000_003`. -/
def BASE : Int := 1000003

/-- Modular inverse via the extended gcd, matching Python `pow(a, -1, m)` when
`gcd a m = 1` (the only case Python does not raise; `BASE` is odd so the
detector never hits the error case). -/
def modInverse (a m : Nat) : Nat := ((Nat.gcdA a m % (m : Int)).toNat) % m

/-- Python `pow(b, e, m)` for a nonnegative base and positive modulus,
including negative exponents (modular inverse). -/
def pythonPowMod (b e m : Int) : Int :=
  if 0 ≤ e then b ^ e.toNat % m
  else ((modInverse (b % m).toNat m.toNat : Int)) ^ (-e).toNat % m

/-- The initial window hash: `h = (h * base + encoded[i]) % mod` over
`encoded[0:length]`. -/
def initialHash (encoded : List Nat) (length : Nat) : Int :=
  (encoded.take length).foldl (fun h t => (h * BASE + (t : Int)) % MOD) 0

/-- One rolling-hash step from window start `s - 1` to window start `s`:
`h = (h - (left * pow_base) % mod) % mod; h = (h * base + right) % mod`. -/
def rollStep (encoded : List Nat) (length : Nat) (powBase : Int) (h : Int) (s : Nat) : Int :=
  let leftVal : Int := (encoded.getD (s - 1) 0 : Nat)
  let rightVal : Int := (encoded.getD (s + length - 1) 0 : Nat)
  let h1 := (h - (leftVal * powBase) % MOD) % MOD
  (h1 * BASE + rightVal) % MOD

/-- The sequence of window hashes produced by the rolling scan: the head is the
hash for start `s - 1`, followed by `cnt` further rolled windows. -/
def rollHashes (encoded : List Nat) (length : Nat) (powBase : Int) : Int → Nat → Nat → List Int
  | h, _, 0 => [h]
  | h, s, cnt + 1 => h :: rollHashes encoded length powBase (rollStep encoded length powBase h s) (s + 1) cnt

/-- All window hashes for one candidate length: entry `p` is the hash of the
window starting at `p` (starts `0` through `n - length`). -/
def windowHashList (encoded : List Nat) (length : Nat) : List Int :=
  rollHashes encoded length (pythonPowMod BASE ((length : Int) - 1) MOD)
    (initialHash encoded length) 1 (encoded.length - length)

/-- The exact (unreduced) polynomial value of a token window, continuing from
an accumulator: the mod-free counterpart of the hashing fold. -/
def polyValFrom (h : Int) (w : List Nat) : Int :=
  w.foldl (fun (h : Int) (t : Nat) => h * BASE + (t : Int)) h

/-- The exact polynomial value `Σ w[i] * BASE^(len-1-i)` of a token window. -/
def polyVal (w : List Nat) : Int := polyValFrom 0 w

/-- Insertion-ordered association table: `setdefault(key, []).append(x)`. -/
def insertKeyed {κ : Type} [DecidableEq κ] (k : κ) (x : Nat) :
    List (κ × List Nat) → List (κ × List Nat)
  | [] => [(k, [x])]
  | (k', v) :: rest =>
    if k' = k then (k', v ++ [x]) :: rest else (k', v) :: insertKeyed k x rest

/-- Group a list of positions by a key function, preserving first-appearance
order of keys and insertion order inside each bucket — the iteration semantics
of a Python dict built with `setdefault`. -/
def groupByKey {κ : Type} [DecidableEq κ] (keyOf : Nat → κ) (xs : List Nat) :
    List (κ × List Nat) :=
  xs.foldl (fun tbl x => insertKeyed (keyOf x) x tbl) []

/-- The hash table `hashes` for one candidate length: window starts grouped by
their rolling hash, in scan order. -/
def hashBuckets (encoded : List Nat) (length : Nat) : List (Int × List Nat) :=
  groupByKey (fun p => (windowHashList encoded length).getD p 0)
    (List.range (encoded.length - length + 1))

/-- The verified occurrence groups for one candidate length: hash buckets with
at least `min_repeats` entries, sub-grouped by the actual token subsequence
`tuple(encoded[idx : idx + length])`. -/
def seqGroups (encoded : List Nat) (minRepeats length : Nat) : List (List Nat) :=
  ((hashBuckets encoded length).filter (fun kv => !(kv.2.length < minRepeats))).flatMap
    (fun kv => (groupByKey (fun idx => (encoded.drop idx).take length) kv.2).map Prod.snd)

/-- The ranking tuple: `(-diff, occurrence_count, length, score)` with a
`target_occurrences` hint, else `(score, length, occurrence_count)`. -/
def mkPriority (targetOcc : Option Nat) (length score occurrenceCount : Nat) : List Int :=
  match targetOcc with
  | some t => [-(((occurrenceCount : Int) - (t : Int)).natAbs : Int),
               (occurrenceCount : Int), (length : Int), (score : Int)]
  | none => [(score : Int), (length : Int), (occurrenceCount : Int)]

/-- Python tuple `>` on integer tuples (lexicographic; a strict prefix is
smaller). -/
def priGT : List Int → List Int → Bool
  | [], _ => false
  | _ :: _, [] => true
  | a :: as, b :: bs => if b < a then true else if a = b then priGT as bs else false

/-- Evaluate one verified occurrence group at one candidate length: select the
non-overlapping occurrences, drop the group if fewer than `min_repeats`
survive, otherwise build the candidate dictionary and its ranking tuple. -/
def evalGroup (names : List String) (targetOcc : Option Nat) (minRepeats length : Nat)
    (occurrences : List Nat) : Option (BlockInfo × List Int) :=
  let nonOverlapping := select_non_overlapping occurrences length
  if nonOverlapping.length < minRepeats then none
  else
    let score := length * nonOverlapping.length
    let occurrenceCount := nonOverlapping.length
    some ({ length := length,
            occurrences := nonOverlapping,
            kernelSequence := (names.drop (nonOverlapping.headD 0)).take length,
            score := score,
            occurrenceCount := occurrenceCount,
            targetOccurrences := targetOcc,
            occurrenceDiff := targetOcc.map (fun t => ((occurrenceCount : Int) - (t : Int)).natAbs) },
          mkPriority targetOcc length score occurrenceCount)

/-- `if not best or priority > best_priority`: keep the best-so-far candidate,
replacing only on a strictly greater ranking tuple. -/
def stepBest (st : Option (BlockInfo × List Int)) (c : BlockInfo × List Int) :
    Option (BlockInfo × List Int) :=
  match st with
  | none => some c
  | some bp => if priGT c.2 bp.2 then some c else st

/-- Fold the strict-replacement accumulator over a candidate list. -/
def bestOfList (st : Option (BlockInfo × List Int)) (l : List (BlockInfo × List Int)) :
    Option (BlockInfo × List Int) :=
  l.foldl stepBest st

/-- All candidates evaluated at one length, in the order the nested Python
loops meet them. -/
def candidatesForLength (names : List String) (encoded : List Nat) (targetOcc : Option Nat)
    (minRepeats length : Nat) : List (BlockInfo × List Int) :=
  (seqGroups encoded minRepeats length).filterMap (evalGroup names targetOcc minRepeats length)

/-- `range(max_length, min_block_length - 1, -1)`: candidate lengths from
`max_length` down to `min_block_length`. -/
def lengthsTried (minBlockLength maxLength : Nat) : List Nat :=
  (List.range' minBlockLength (maxLength + 1 - minBlockLength)).reverse

/-- `find_repeated_block`, after extracting the kernel-name column. The nested
loops (lengths, hash buckets, sequence groups) updating `best` in place are a
fold of the strict-replacement accumulator over the candidates in loop order. -/
def findFromNames (names : List String) (minBlockLength maxBlockLength minRepeats : Nat)
    (targetOccurrences : Option Nat) : Option BlockInfo :=
  if names.isEmpty then none
  else
    let encoded := (encode_kernel_names names).1
    let n := encoded.length
    if n < minBlockLength * minRepeats then none
    else
      let maxLength := min maxBlockLength (n / minRepeats)
      ((lengthsTried minBlockLength maxLength).foldl
        (fun st length => bestOfList st (candidatesForLength names encoded targetOccurrences minRepeats length))
        none).map Prod.fst

/-- `find_repeated_block(df, ...)`: `df is None or df.empty` becomes the empty
event list; `df["Kernel Name"].tolist()` is the kernel-name column. -/
def find_repeated_block (events : List Event) (minBlockLength maxBlockLength minRepeats : Nat)
    (targetOccurrences : Option Nat) : Option BlockInfo :=
  findFromNames (events.map Event.kernelName) minBlockLength maxBlockLength minRepeats
    targetOccurrences

/-- The flat list of every candidate `find_repeated_block` evaluates, empty on
the early-return paths. -/
def allCandidates (events : List Event) (minBlockLength maxBlockLength minRepeats : Nat)
    (targetOccurrences : Option Nat) : List (BlockInfo × List Int) :=
  let names := events.map Event.kernelName
  if names.isEmpty then []
  else
    let encoded := (encode_kernel_names names).1
    let n := encoded.length
    if n < minBlockLength * minRepeats then []
    else
      let maxLength := min maxBlockLength (n / minRepeats)
      (lengthsTried minBlockLength maxLength).flatMap
        (candidatesForLength names encoded targetOccurrences minRepeats)

/-- Rounding to three decimals (`round(x, 3)`); Python's float half-even
rounding is idealized over `ℚ`. No verified claim constrains rounded values. -/
def roundTo3 (x : Rat) : Rat := ((round (x * 1000) : Int) : Rat) / 1000

/-- `np.mean` over `ℚ`. -/
def meanOf (l : List Rat) : Rat := l.sum / (l.length : Rat)

/-- `np.median`: middle of the sorted list, or the average of the two middle
elements for an even count. -/
def medianOf (l : List Rat) : Rat :=
  let s := List.insertionSort (· ≤ ·) l
  if l.length % 2 = 1 then s.getD (l.length / 2) 0
  else (s.getD (l.length / 2 - 1) 0 + s.getD (l.length / 2) 0) / 2

/-- `np.min` (0 on the empty list, which the detector never produces). -/
def minOf (l : List Rat) : Rat := (List.insertionSort (· ≤ ·) l).headD 0

/-- `np.max` (0 on the empty list, which the detector never produces). -/
def maxOf (l : List Rat) : Rat := (List.insertionSort (· ≤ ·) l).getLastD 0

/-- One row of the per-position summary table. -/
structure SummaryRow where
  position : Nat
  kernelName : String
  avgDuration : Rat
  medianDuration : Rat
  minDuration : Rat
  maxDuration : Rat
  occurrences : Nat
deriving DecidableEq

/-- A pandas data frame reduced to what the claims observe: its column names
and its rows. `pd.DataFrame(data)` on a nonempty list of uniform dicts has the
dict keys as columns; on an empty list it has no columns. -/
structure SummaryTable where
  columns : List String
  rows : List SummaryRow
deriving DecidableEq

def summaryColumns : List String :=
  ["Position", "Kernel Name", "Avg Duration (us)", "Median Duration (us)",
   "Min Duration (us)", "Max Duration (us)", "Occurrences"]

/-- `summarize_block(df, block_info)`: per-position duration statistics across
all occurrences; an occurrence is skipped at a position if `start + position`
runs past the end of the trace, and a position with no durations produces no
row. -/
def summarize_block (events : List Event) (blockInfo : Option BlockInfo) : SummaryTable :=
  match blockInfo with
  | none => ⟨summaryColumns, []⟩
  | some b =>
    let rows := (List.range b.length).filterMap (fun position =>
      let durations := (b.occurrences.filter (fun s => decide (s + position < events.length))).map
        (fun s => (events.getD (s + position) ⟨"", 0⟩).duration)
      if durations.isEmpty then none
      else some {
        position := position,
        kernelName := b.kernelSequence.getD position "",
        avgDuration := roundTo3 (meanOf durations),
        medianDuration := roundTo3 (medianOf durations),
        minDuration := roundTo3 (minOf durations),
        maxDuration := roundTo3 (maxOf durations),
        occurrences := durations.length })
    ⟨if rows.isEmpty then [] else summaryColumns, rows⟩

/-- A metadata table cell: strings, counts, exact rationals, or the one
irrational quantity `round(np.std(xs, ddof=1), 3)` kept symbolically as
`roundedSqrt v` where `v` is the Bessel-corrected variance. -/
inductive MetaValue where
  | str : String → MetaValue
  | nat : Nat → MetaValue
  | rat : Rat → MetaValue
  | roundedSqrt : Rat → MetaValue
deriving DecidableEq

/-- The per-trace metadata frame: `Metric`/`Value` columns and one row per
metric. -/
structure MetaTable where
  columns : List String
  rows : List (String × MetaValue)
deriving DecidableEq

/-- `block_metadata(df, block_info, trace_name)`. On a missing block it
returns a single `Status` row; otherwise one row per metric, where each
occurrence's total block duration is the sum over `df.iloc[start:start+length]`
(pandas slicing clamps at the end of the frame, like `drop`/`take`). -/
def block_metadata (events : List Event) (blockInfo : Option BlockInfo) (traceName : String) :
    MetaTable :=
  match blockInfo with
  | none => ⟨["Metric", "Value"],
      [("Status", MetaValue.str ("No repeated block (length >= 10) found for " ++ traceName))]⟩
  | some b =>
    let blockDurations : List Rat :=
      b.occurrences.map (fun s => (((events.drop s).take b.length).map Event.duration).sum)
    let count := blockDurations.length
    let mean : Rat := blockDurations.sum / (count : Rat)
    let stdVal : MetaValue :=
      if 1 < count then
        MetaValue.roundedSqrt ((blockDurations.map (fun x => (x - mean) ^ 2)).sum / ((count : Rat) - 1))
      else MetaValue.rat 0
    ⟨["Metric", "Value"],
      [("Trace Name", MetaValue.str traceName),
       ("Block Length (kernels)", MetaValue.nat b.length),
       ("Occurrences", MetaValue.nat b.occurrenceCount),
       ("First Kernel Index", MetaValue.nat (b.occurrences.headD 0)),
       ("Score", MetaValue.nat b.score),
       ("Mean Block Duration (us)", MetaValue.rat (roundTo3 mean)),
       ("Std Block Duration (us)", stdVal),
       ("Min Block Duration (us)", MetaValue.rat (roundTo3 (minOf blockDurations))),
       ("Max Block Duration (us)", MetaValue.rat (roundTo3 (maxOf blockDurations)))]
      ++ (match b.targetOccurrences with
          | some t => [("Target Occurrences", MetaValue.nat t),
                       ("Occurrence Delta", MetaValue.nat ((b.occurrenceCount : Int) - (t : Int)).natAbs)]
          | none => [])⟩
/-! ### Concrete traces used as evaluation witnesses -/

def evC1 : List Event :=
  [⟨"A", 0⟩, ⟨"B", 0⟩, ⟨"C", 0⟩, ⟨"A", 0⟩, ⟨"B", 0⟩, ⟨"C", 0⟩,
   ⟨"A", 0⟩, ⟨"B", 0⟩, ⟨"C", 0⟩, ⟨"D", 0⟩]

def evXY : List Event := [⟨"X", 5⟩, ⟨"Y", 7⟩, ⟨"X", 6⟩, ⟨"Y", 8⟩]

def bXY : BlockInfo :=
  { length := 2, occurrences := [0, 2], kernelSequence := ["X", "Y"], score := 4,
    occurrenceCount := 2, targetOccurrences := none, occurrenceDiff := none }

def evC7 : List Event :=
  List.replicate 11 (⟨"A", 0⟩ : Event) ++ List.replicate 8 (⟨"B", 0⟩ : Event)

def evC8 : List Event := [⟨"A", 0⟩]

/-! ### Association-table lemmas -/

lemma mem_insertKeyed {κ : Type} [DecidableEq κ] {k₀ : κ} {x : Nat} :
    ∀ {tbl : List (κ × List Nat)} {k : κ} {v : List Nat}, (k, v) ∈ insertKeyed k₀ x tbl →
      (k, v) ∈ tbl ∨ (k = k₀ ∧ ((∃ v₀, (k, v₀) ∈ tbl ∧ v = v₀ ++ [x]) ∨ v = [x])) := by
  intro tbl
  induction tbl with
  | nil =>
    intro k v h
    simp only [insertKeyed, List.mem_singleton, Prod.mk.injEq] at h
    exact Or.inr ⟨h.1, Or.inr h.2⟩
  | cons hd rest ih =>
    intro k v h
    obtain ⟨k', v'⟩ := hd
    by_cases hk : k' = k₀
    · rw [insertKeyed, if_pos hk] at h
      rcases List.mem_cons.mp h with heq | hmem
      · have hk2 : k = k' := congrArg Prod.fst heq
        have hv2 : v = v' ++ [x] := congrArg Prod.snd heq
        subst hk2
        exact Or.inr ⟨hk, Or.inl ⟨v', List.mem_cons_self _ _, hv2⟩⟩
      · exact Or.inl (List.mem_cons_of_mem _ hmem)
    · rw [insertKeyed, if_neg hk] at h
      rcases List.mem_cons.mp h with heq | hmem
      · rw [heq]
        exact Or.inl (List.mem_cons_self _ _)
      · rcases ih hmem with h' | ⟨hkk, h'⟩
        · exact Or.inl (List.mem_cons_of_mem _ h')
        · refine Or.inr ⟨hkk, ?_⟩
          rcases h' with ⟨v₀, hv₀, hveq⟩ | hveq
          · exact Or.inl ⟨v₀, List.mem_cons_of_mem _ hv₀, hveq⟩
          · exact Or.inr hveq

lemma foldIns_invariant {κ : Type} [DecidableEq κ] (f : Nat → κ) (P : Nat → Prop) :
    ∀ (xs : List Nat) (tbl : List (κ × List Nat)),
    xs.Nodup → (∀ x ∈ xs, P x) →
    (∀ k v, (k, v) ∈ tbl → v.Nodup ∧ ∀ y ∈ v, f y = k ∧ P y ∧ y ∉ xs) →
    ∀ k v, (k, v) ∈ xs.foldl (fun t x => insertKeyed (f x) x t) tbl →
      v.Nodup ∧ ∀ y ∈ v, f y = k ∧ P y := by
  intro xs
  induction xs with
  | nil =>
    intro tbl _ _ htbl k v hv
    exact ⟨(htbl k v hv).1, fun y hy => ⟨((htbl k v hv).2 y hy).1, ((htbl k v hv).2 y hy).2.1⟩⟩
  | cons x xs' ih =>
    intro tbl hnd hP htbl k v hv
    simp only [List.foldl_cons] at hv
    refine ih (insertKeyed (f x) x tbl) (List.nodup_cons.mp hnd).2
      (fun y hy => hP y (List.mem_cons_of_mem _ hy)) ?_ k v hv
    intro k' v' hv'
    rcases mem_insertKeyed hv' with h | ⟨rfl, h⟩
    · obtain ⟨h1, h2⟩ := htbl k' v' h
      exact ⟨h1, fun y hy => ⟨(h2 y hy).1, (h2 y hy).2.1,
        fun hc => (h2 y hy).2.2 (List.mem_cons_of_mem _ hc)⟩⟩
    · rcases h with ⟨v₀, hv₀, rfl⟩ | rfl
      · obtain ⟨h1, h2⟩ := htbl (f x) v₀ hv₀
        have hxnot : x ∉ v₀ := fun hc => (h2 x hc).2.2 (List.mem_cons_self x xs')
        refine ⟨List.Nodup.append h1 (List.nodup_singleton x) ?_, ?_⟩
        · intro a ha hb
          rw [List.mem_singleton] at hb
          subst hb
          exact hxnot ha
        · intro y hy
          rcases List.mem_append.mp hy with hy | hy
          · exact ⟨(h2 y hy).1, (h2 y hy).2.1, fun hc => (h2 y hy).2.2 (List.mem_cons_of_mem _ hc)⟩
          · rw [List.mem_singleton] at hy
            subst hy
            exact ⟨rfl, hP y (List.mem_cons_self y xs'), (List.nodup_cons.mp hnd).1⟩
      · refine ⟨List.nodup_singleton x, ?_⟩
        intro y hy
        rw [List.mem_singleton] at hy
        subst hy
        exact ⟨rfl, hP y (List.mem_cons_self y xs'), (List.nodup_cons.mp hnd).1⟩

/-- Soundness of `groupByKey` on a duplicate-free source: every bucket is
duplicate-free and holds only source elements mapping to the bucket key. -/
lemma groupByKey_spec {κ : Type} [DecidableEq κ] (f : Nat → κ) (xs : List Nat) (hxs : xs.Nodup) :
    ∀ k v, (k, v) ∈ groupByKey f xs → v.Nodup ∧ ∀ y ∈ v, f y = k ∧ y ∈ xs := by
  intro k v hv
  exact foldIns_invariant f (fun y => y ∈ xs) xs [] hxs (fun x hx => hx) (by simp) k v hv

/-! ### Greedy non-overlap selection lemmas -/

lemma selectAux_sublist (L : Nat) : ∀ (xs : List Nat) (e : Int), (selectAux L xs e).Sublist xs := by
  intro xs
  induction xs with
  | nil => intro e; simp [selectAux]
  | cons x rest ih =>
    intro e
    by_cases h : e ≤ (x : Int)
    · simpa [selectAux, if_pos h] using List.Sublist.cons₂ x (ih ((x : Int) + L))
    · simpa [selectAux, if_neg h] using List.Sublist.cons x (ih e)

lemma selectAux_ge (L : Nat) : ∀ (xs : List Nat) (e : Int), ∀ y ∈ selectAux L xs e, e ≤ (y : Int) := by
  intro xs
  induction xs with
  | nil => intro e y hy; simp [selectAux] at hy
  | cons x rest ih =>
    intro e y hy
    by_cases h : e ≤ (x : Int)
    · simp only [selectAux, if_pos h, List.mem_cons] at hy
      rcases hy with rfl | hy
      · exact h
      · have := ih ((x : Int) + L) y hy
        have hL : (0 : Int) ≤ (L : Int) := Int.ofNat_nonneg L
        omega
    · simp only [selectAux, if_neg h] at hy
      exact ih e y hy

lemma selectAux_pairwise (L : Nat) : ∀ (xs : List Nat) (e : Int), xs.Sorted (· ≤ ·) →
    (selectAux L xs e).Pairwise (fun a b => a + L ≤ b) := by
  intro xs
  induction xs with
  | nil => intro e _; simp [selectAux]
  | cons x rest ih =>
    intro e hs
    obtain ⟨hx, hrest⟩ := List.sorted_cons.mp hs
    by_cases h : e ≤ (x : Int)
    · simp only [selectAux, if_pos h]
      refine List.pairwise_cons.mpr ⟨?_, ih ((x : Int) + L) hrest⟩
      intro y hy
      have := selectAux_ge L rest ((x : Int) + L) y hy
      omega
    · simp only [selectAux, if_neg h]
      exact ih e hrest

/-- The exchange argument behind greedy optimality: against a sorted pool `xs`,
any pairwise `L`-separated sublist whose members all clear the threshold `e`
is no longer than the greedy selection. -/
lemma selectAux_max (L : Nat) : ∀ (xs : List Nat) (e : Int) (t : List Nat),
    xs.Sorted (· ≤ ·) → t.Sublist xs → t.Pairwise (fun a b => a + L ≤ b) →
    (∀ y ∈ t, e ≤ (y : Int)) → t.length ≤ (selectAux L xs e).length := by
  intro xs
  induction xs with
  | nil =>
    intro e t _ ht _ _
    simp [List.sublist_nil.mp ht, selectAux]
  | cons x rest ih =>
    intro e t hs ht hp hge
    obtain ⟨hx, hrest⟩ := List.sorted_cons.mp hs
    by_cases h : e ≤ (x : Int)
    · simp only [selectAux, if_pos h, List.length_cons]
      cases t with
      | nil => simp
      | cons y t' =>
        have hkey : x ≤ y ∧ t'.Sublist rest := by
          cases ht with
          | cons _ h'' =>
            exact ⟨hx y (h''.mem (List.mem_cons_self y t')), (List.sublist_cons_self y t').trans h''⟩
          | cons₂ _ h'' => exact ⟨le_refl x, h''⟩
        obtain ⟨hyhead, hp'⟩ := List.pairwise_cons.mp hp
        have hrec : t'.length ≤ (selectAux L rest ((x : Int) + L)).length := by
          refine ih ((x : Int) + L) t' hrest hkey.2 hp' ?_
          intro z hz
          have h1 := hyhead z hz
          have h2 := hkey.1
          omega
        simpa using Nat.succ_le_succ hrec
    · simp only [selectAux, if_neg h]
      cases t with
      | nil => simp
      | cons y t' =>
        cases ht with
        | cons _ h'' => exact ih e (y :: t') hrest h'' hp hge
        | cons₂ _ h'' => exact absurd (hge x (List.mem_cons_self x t')) h

lemma select_non_overlapping_sublist (indices : List Nat) (L : Nat) :
    (select_non_overlapping indices L).Sublist (List.insertionSort (· ≤ ·) indices) :=
  selectAux_sublist L _ (-1)

lemma select_non_overlapping_pairwise (indices : List Nat) (L : Nat) :
    (select_non_overlapping indices L).Pairwise (fun a b => a + L ≤ b) :=
  selectAux_pairwise L _ (-1) (List.sorted_insertionSort (· ≤ ·) indices)

lemma select_non_overlapping_mem {indices : List Nat} {L x : Nat}
    (h : x ∈ select_non_overlapping indices L) : x ∈ indices :=
  (List.perm_insertionSort (· ≤ ·) indices).mem_iff.mp
    ((select_non_overlapping_sublist indices L).mem h)

lemma select_non_overlapping_pairwise_lt {indices : List Nat} (L : Nat) (h : indices.Nodup) :
    (select_non_overlapping indices L).Pairwise (· < ·) := by
  have hsorted : (List.insertionSort (· ≤ ·) indices).Pairwise (· ≤ ·) :=
    List.sorted_insertionSort (· ≤ ·) indices
  have hnd : (List.insertionSort (· ≤ ·) indices).Nodup :=
    (List.perm_insertionSort (· ≤ ·) indices).symm.nodup h
  have hlt : (List.insertionSort (· ≤ ·) indices).Pairwise (· < ·) :=
    (hsorted.and hnd).imp (fun hab => lt_of_le_of_ne hab.1 hab.2)
  exact List.Pairwise.sublist (select_non_overlapping_sublist indices L) hlt

lemma select_non_overlapping_ne_nil {indices : List Nat} (L : Nat) (h : indices ≠ []) :
    select_non_overlapping indices L ≠ [] := by
  unfold select_non_overlapping
  cases hsort : List.insertionSort (· ≤ ·) indices with
  | nil =>
    have hp := List.perm_insertionSort (· ≤ ·) indices
    rw [hsort] at hp
    exact absurd hp.symm.eq_nil h
  | cons a tl =>
    have : (-1 : Int) ≤ (a : Int) := by omega
    simp [selectAux, this]

/-! ### Priority-tuple order lemmas -/

lemma priGT_iff_lex : ∀ (a b : List Int), priGT a b = true ↔ List.Lex (· < ·) b a := by
  intro a
  induction a with
  | nil =>
    intro b
    simp only [priGT, Bool.false_eq_true, false_iff]
    exact List.Lex.not_nil_right _ b
  | cons x as ih =>
    intro b
    cases b with
    | nil => simp [priGT, List.Lex.nil]
    | cons y bs =>
      simp only [priGT]
      by_cases hyx : y < x
      · simp only [if_pos hyx, true_iff]
        exact List.Lex.rel hyx
      · rw [if_neg hyx]
        by_cases hxy : x = y
        · subst hxy
          rw [if_pos rfl, ih bs]
          exact ⟨fun h => List.Lex.cons h, fun h => List.Lex.cons_iff.mp h⟩
        · rw [if_neg hxy]
          simp only [Bool.false_eq_true, false_iff]
          intro h
          cases h with
          | cons h' => exact hxy rfl
          | rel h' => exact hyx h'

lemma priGT_trans {a b c : List Int} (h1 : priGT a b = true) (h2 : priGT b c = true) :
    priGT a c = true := by
  rw [priGT_iff_lex] at h1 h2 ⊢
  exact IsTrans.trans _ _ _ h2 h1

lemma priGT_irrefl (a : List Int) : priGT a a = false := by
  by_contra h
  have := priGT_iff_lex a a |>.mp (by revert h; cases priGT a a <;> simp)
  exact (@List.Lex.isAsymm Int (· < ·) inferInstance).asymm _ _ this this

lemma priGT_asymm {a b : List Int} (h : priGT a b = true) : priGT b a = false := by
  by_contra hc
  have h2 := priGT_iff_lex b a |>.mp (by revert hc; cases priGT b a <;> simp)
  have h1 := priGT_iff_lex a b |>.mp h
  exact (@List.Lex.isAsymm Int (· < ·) inferInstance).asymm _ _ h1 h2

lemma priGT_total {a b : List Int} (h1 : priGT a b = false) (h2 : priGT b a = false) : a = b := by
  rcases (@List.Lex.isTrichotomous Int (· < ·) inferInstance).trichotomous a b with h | h | h
  · exact absurd (priGT_iff_lex b a |>.mpr h) (by simp [h2])
  · exact h
  · exact absurd (priGT_iff_lex a b |>.mpr h) (by simp [h1])

/-! ### Best-so-far accumulator lemmas -/

lemma stepBest_ne_none (st : Option (BlockInfo × List Int)) (c : BlockInfo × List Int) :
    stepBest st c ≠ none := by
  cases st with
  | none => simp [stepBest]
  | some bp =>
    by_cases h : priGT c.2 bp.2 <;> simp [stepBest, h]

lemma bestOfList_eq_none_iff : ∀ (l : List (BlockInfo × List Int)) (st),
    bestOfList st l = none ↔ st = none ∧ l = [] := by
  intro l
  induction l with
  | nil => intro st; simp [bestOfList]
  | cons x rest ih =>
    intro st
    simp only [bestOfList, List.foldl_cons]
    rw [show List.foldl stepBest (stepBest st x) rest = bestOfList (stepBest st x) rest from rfl,
      ih]
    simp [stepBest_ne_none st x]

lemma bestOfList_mem : ∀ (l : List (BlockInfo × List Int)) (st c),
    bestOfList st l = some c → c ∈ l ∨ st = some c := by
  intro l
  induction l with
  | nil => intro st c h; exact Or.inr h
  | cons x rest ih =>
    intro st c h
    simp only [bestOfList, List.foldl_cons] at h
    rcases ih (stepBest st x) c h with h' | h'
    · exact Or.inl (List.mem_cons_of_mem _ h')
    · cases st with
      | none =>
        simp only [stepBest] at h'
        exact Or.inl (by rw [Option.some_inj.mp h']; exact List.mem_cons_self _ _)
      | some bp =>
        by_cases hgt : priGT x.2 bp.2
        · simp only [stepBest, if_pos hgt] at h'
          exact Or.inl (by rw [Option.some_inj.mp h']; exact List.mem_cons_self _ _)
        · simp only [stepBest, if_neg hgt] at h'
          exact Or.inr h'

lemma bestOfList_split_from_some :
    ∀ (l : List (BlockInfo × List Int)) (a c : BlockInfo × List Int),
    bestOfList (some a) l = some c →
    (c = a ∧ ∀ d ∈ l, priGT d.2 c.2 = false) ∨
    (∃ l₁ l₂, l = l₁ ++ c :: l₂ ∧ priGT c.2 a.2 = true ∧
      (∀ d ∈ l₁, priGT c.2 d.2 = true) ∧ (∀ d ∈ l₂, priGT d.2 c.2 = false)) := by
  intro l
  induction l with
  | nil =>
    intro a c h
    simp only [bestOfList, List.foldl_nil] at h
    exact Or.inl ⟨(Option.some_inj.mp h).symm, by simp⟩
  | cons x rest ih =>
    intro a c h
    simp only [bestOfList, List.foldl_cons] at h
    by_cases hgt : priGT x.2 a.2
    · rw [show stepBest (some a) x = some x by simp [stepBest, hgt]] at h
      rcases ih x c h with ⟨rfl, hall⟩ | ⟨r₁, r₂, hsplit, hca, h₁, h₂⟩
      · refine Or.inr ⟨[], rest, by simp, hgt, by simp, hall⟩
      · refine Or.inr ⟨x :: r₁, r₂, by simp [hsplit], priGT_trans hca hgt, ?_, h₂⟩
        intro d hd
        rcases List.mem_cons.mp hd with rfl | hd
        · exact hca
        · exact h₁ d hd
    · rw [show stepBest (some a) x = some a by simp [stepBest, hgt]] at h
      rcases ih a c h with ⟨rfl, hall⟩ | ⟨r₁, r₂, hsplit, hca, h₁, h₂⟩
      · refine Or.inl ⟨rfl, ?_⟩
        intro d hd
        rcases List.mem_cons.mp hd with rfl | hd
        · simpa using hgt
        · exact hall d hd
      · refine Or.inr ⟨x :: r₁, r₂, by simp [hsplit], hca, ?_, h₂⟩
        intro d hd
        rcases List.mem_cons.mp hd with rfl | hd
        · by_cases hda : priGT a.2 d.2
          · exact priGT_trans hca hda
          · have : d.2 = a.2 := priGT_total (by simpa using hgt) (by simpa using hda)
            rw [this]
            exact hca
        · exact h₁ d hd

/-- A successful run of the strict-replacement fold returns the first
candidate attaining the maximal priority: everything before it ranks strictly
below it, and nothing after it ranks strictly above it. -/
lemma bestOfList_none_split (l : List (BlockInfo × List Int)) (c : BlockInfo × List Int)
    (h : bestOfList none l = some c) :
    ∃ l₁ l₂, l = l₁ ++ c :: l₂ ∧
      (∀ d ∈ l₁, priGT c.2 d.2 = true) ∧ (∀ d ∈ l₂, priGT d.2 c.2 = false) := by
  cases l with
  | nil => simp [bestOfList] at h
  | cons x rest =>
    simp only [bestOfList, List.foldl_cons, stepBest] at h
    rcases bestOfList_split_from_some rest x c h with ⟨rfl, hall⟩ | ⟨r₁, r₂, hsplit, hca, h₁, h₂⟩
    · exact ⟨[], rest, by simp, by simp, hall⟩
    · refine ⟨x :: r₁, r₂, by simp [hsplit], ?_, h₂⟩
      intro d hd
      rcases List.mem_cons.mp hd with rfl | hd
      · exact hca
      · exact h₁ d hd

lemma foldl_bestOfList_flatMap (f : Nat → List (BlockInfo × List Int)) :
    ∀ (ls : List Nat) (st),
    ls.foldl (fun st L => bestOfList st (f L)) st = bestOfList st (ls.flatMap f) := by
  intro ls
  induction ls with
  | nil => intro st; simp [bestOfList]
  | cons L rest ih =>
    intro st
    simp only [List.foldl_cons, List.flatMap_cons, bestOfList, List.foldl_append]
    exact ih (List.foldl stepBest st (f L))

/-- `find_repeated_block` is the strict-replacement maximum over the flat list
of all candidates it evaluates. -/
lemma find_eq_bestOfList (events : List Event) (minBlockLength maxBlockLength minRepeats : Nat)
    (targetOccurrences : Option Nat) :
    find_repeated_block events minBlockLength maxBlockLength minRepeats targetOccurrences =
      (bestOfList none (allCandidates events minBlockLength maxBlockLength minRepeats
        targetOccurrences)).map Prod.fst := by
  unfold find_repeated_block findFromNames allCandidates
  by_cases h1 : (events.map Event.kernelName).isEmpty
  · simp [h1, bestOfList]
  · rw [if_neg h1, if_neg h1]
    by_cases h2 : (encode_kernel_names (events.map Event.kernelName)).1.length <
        minBlockLength * minRepeats
    · simp [h2, bestOfList]
    · rw [if_neg h2, if_neg h2]
      exact congrArg (Option.map Prod.fst)
        (foldl_bestOfList_flatMap
          (candidatesForLength (events.map Event.kernelName)
            (encode_kernel_names (events.map Event.kernelName)).1 targetOccurrences minRepeats)
          (lengthsTried minBlockLength
            (min maxBlockLength
              ((encode_kernel_names (events.map Event.kernelName)).1.length / minRepeats)))
          none)

/-! ### Kernel-name encoding lemmas -/

lemma encodeList_length : ∀ (names : List String) (m : List (String × Nat)),
    (encodeList names m).1.length = names.length := by
  intro names
  induction names with
  | nil => intro m; rfl
  | cons nm rest ih =>
    intro m
    cases h : lookupName nm m with
    | some t => simp [encodeList, h, ih]
    | none => simp [encodeList, h, ih]

lemma encodeList_extends : ∀ (names : List String) (m : List (String × Nat)),
    ∃ ext, (encodeList names m).2 = m ++ ext := by
  intro names
  induction names with
  | nil => intro m; exact ⟨[], by simp [encodeList]⟩
  | cons nm rest ih =>
    intro m
    cases h : lookupName nm m with
    | some t =>
      obtain ⟨ext, hext⟩ := ih m
      exact ⟨ext, by simp [encodeList, h, hext]⟩
    | none =>
      obtain ⟨ext, hext⟩ := ih (m ++ [(nm, m.length + 1)])
      exact ⟨[(nm, m.length + 1)] ++ ext, by simp [encodeList, h, hext]⟩

lemma lookupName_append_of_some {name : String} :
    ∀ {m : List (String × Nat)} {t : Nat}, lookupName name m = some t →
    ∀ (ext : List (String × Nat)), lookupName name (m ++ ext) = some t := by
  intro m
  induction m with
  | nil => intro t h; simp [lookupName] at h
  | cons hd rest ih =>
    intro t h ext
    obtain ⟨k, v⟩ := hd
    by_cases hk : k = name
    · rw [lookupName, if_pos hk] at h
      simpa [lookupName, hk] using h
    · rw [lookupName, if_neg hk] at h
      simpa [lookupName, hk] using ih h ext

lemma lookupName_append_of_none {name : String} :
    ∀ {m : List (String × Nat)}, lookupName name m = none →
    ∀ (ext : List (String × Nat)), lookupName name (m ++ ext) = lookupName name ext := by
  intro m
  induction m with
  | nil => intro _ ext; simp
  | cons hd rest ih =>
    intro h ext
    obtain ⟨k, v⟩ := hd
    by_cases hk : k = name
    · rw [lookupName, if_pos hk] at h
      exact absurd h (by simp)
    · rw [lookupName, if_neg hk] at h
      simpa [lookupName, hk] using ih h ext

lemma lookupName_mem {name : String} :
    ∀ {m : List (String × Nat)} {v : Nat}, lookupName name m = some v → (name, v) ∈ m := by
  intro m
  induction m with
  | nil => intro v h; simp [lookupName] at h
  | cons hd rest ih =>
    intro v h
    obtain ⟨k, v'⟩ := hd
    by_cases hk : k = name
    · rw [lookupName, if_pos hk] at h
      subst hk
      rw [Option.some_inj.mp h]
      exact List.mem_cons_self _ _
    · rw [lookupName, if_neg hk] at h
      exact List.mem_cons_of_mem _ (ih h)

/-- Invariant of the name-to-token map: tokens are `1..len` bounded and
pairwise distinct. -/
def GoodMap (m : List (String × Nat)) : Prop :=
  (∀ p ∈ m, p.2 ≤ m.length) ∧ (m.map Prod.snd).Nodup

lemma goodMap_nil : GoodMap [] := ⟨by simp, by simp⟩

lemma goodMap_append {m : List (String × Nat)} {name : String} (hg : GoodMap m) :
    GoodMap (m ++ [(name, m.length + 1)]) := by
  obtain ⟨hbound, hnd⟩ := hg
  constructor
  · intro p hp
    rcases List.mem_append.mp hp with hp | hp
    · have := hbound p hp
      simp only [List.length_append, List.length_singleton]
      omega
    · rw [List.mem_singleton] at hp
      subst hp
      simp
  · rw [List.map_append]
    refine List.Nodup.append hnd (by simp) ?_
    intro v hv hv'
    simp only [List.map_cons, List.map_nil, List.mem_singleton] at hv'
    obtain ⟨p, hp, rfl⟩ := List.mem_map.mp hv
    have := hbound p hp
    omega

lemma encodeList_goodMap : ∀ (names : List String) (m : List (String × Nat)),
    GoodMap m → GoodMap (encodeList names m).2 := by
  intro names
  induction names with
  | nil => intro m hg; exact hg
  | cons nm rest ih =>
    intro m hg
    cases h : lookupName nm m with
    | some t => simpa [encodeList, h] using ih m hg
    | none => simpa [encodeList, h] using ih _ (goodMap_append hg)

/-- Every encoded token is the final map's lookup of the name at the same
position. -/
lemma encodeList_lookup : ∀ (names : List String) (m : List (String × Nat)) (i : Nat)
    (name : String) (t : Nat), names[i]? = some name → (encodeList names m).1[i]? = some t →
    lookupName name (encodeList names m).2 = some t := by
  intro names
  induction names with
  | nil => intro m i name t h; simp at h
  | cons nm rest ih =>
    intro m i name t hname htok
    cases h : lookupName nm m with
    | some t' =>
      simp only [encodeList, h] at htok ⊢
      cases i with
      | zero =>
        simp only [List.getElem?_cons_zero, Option.some_inj] at hname htok
        subst hname
        obtain ⟨ext, hext⟩ := encodeList_extends rest m
        rw [hext]
        rw [← htok]
        exact lookupName_append_of_some h ext
      | succ i' =>
        simp only [List.getElem?_cons_succ] at hname htok
        exact ih m i' name t hname htok
    | none =>
      simp only [encodeList, h] at htok ⊢
      cases i with
      | zero =>
        simp only [List.getElem?_cons_zero, Option.some_inj] at hname htok
        subst hname
        obtain ⟨ext, hext⟩ := encodeList_extends rest (m ++ [(nm, m.length + 1)])
        rw [hext, ← htok, List.append_assoc]
        rw [lookupName_append_of_none h]
        rw [show [(nm, m.length + 1)] ++ ext = (nm, m.length + 1) :: ext from rfl]
        simp [lookupName]
      | succ i' =>
        simp only [List.getElem?_cons_succ] at hname htok
        exact ih (m ++ [(nm, m.length + 1)]) i' name t hname htok

lemma lookupName_inj {m : List (String × Nat)} (hnd : (m.map Prod.snd).Nodup)
    {a b : String} {v : Nat} (ha : lookupName a m = some v) (hb : lookupName b m = some v) :
    a = b := by
  have h1 := lookupName_mem ha
  have h2 := lookupName_mem hb
  have := List.inj_on_of_nodup_map hnd h1 h2 rfl
  exact congrArg Prod.fst this

/-- Equal tokens at two positions force equal kernel names at those
positions: the encoding never conflates distinct names. -/
lemma encode_consistent (names : List String) {i j : Nat} {ni nj : String} {t : Nat}
    (hni : names[i]? = some ni) (hnj : names[j]? = some nj)
    (hti : (encode_kernel_names names).1[i]? = some t)
    (htj : (encode_kernel_names names).1[j]? = some t) : ni = nj := by
  have hgi := encodeList_lookup names [] i ni t hni hti
  have hgj := encodeList_lookup names [] j nj t hnj htj
  have hgm := encodeList_goodMap names [] goodMap_nil
  exact lookupName_inj hgm.2 hgi hgj

/-- Equality of two length-`L` slices gives pointwise equality of entries. -/
lemma slice_eq_imp_eq {l : List Nat} {sa sb L j : Nat}
    (h : (l.drop sa).take L = (l.drop sb).take L) (hj : j < L) :
    l[sa + j]? = l[sb + j]? := by
  have ha : ((l.drop sa).take L)[j]? = l[sa + j]? := by
    rw [List.getElem?_take, if_pos hj, List.getElem?_drop]
  have hb : ((l.drop sb).take L)[j]? = l[sb + j]? := by
    rw [List.getElem?_take, if_pos hj, List.getElem?_drop]
  rw [← ha, ← hb, h]

/-! ### Provenance of returned candidates -/

lemma groupByKey_ne_nil {κ : Type} [DecidableEq κ] (f : Nat → κ) (xs : List Nat) :
    ∀ k v, (k, v) ∈ groupByKey f xs → v ≠ [] := by
  suffices h : ∀ (ys : List Nat) (tbl : List (κ × List Nat)),
      (∀ k v, (k, v) ∈ tbl → v ≠ []) →
      ∀ k v, (k, v) ∈ ys.foldl (fun t x => insertKeyed (f x) x t) tbl → v ≠ [] by
    intro k v hv
    exact h xs [] (by simp) k v hv
  intro ys
  induction ys with
  | nil => intro tbl htbl k v hv; exact htbl k v hv
  | cons x ys' ih =>
    intro tbl htbl k v hv
    simp only [List.foldl_cons] at hv
    refine ih (insertKeyed (f x) x tbl) ?_ k v hv
    intro k' v' hv'
    rcases mem_insertKeyed hv' with h' | ⟨_, h'⟩
    · exact htbl k' v' h'
    · rcases h' with ⟨v₀, _, rfl⟩ | rfl <;> simp

lemma mem_seqGroups {encoded : List Nat} {mr L : Nat} {occs : List Nat}
    (h : occs ∈ seqGroups encoded mr L) :
    occs.Nodup ∧ occs ≠ [] ∧ (∀ x ∈ occs, x ≤ encoded.length - L) ∧
    (∀ x ∈ occs, ∀ y ∈ occs, (encoded.drop x).take L = (encoded.drop y).take L) := by
  unfold seqGroups at h
  obtain ⟨kv, hkv, hocc⟩ := List.mem_flatMap.mp h
  obtain ⟨khash, idxs⟩ := kv
  have hkvbucket : (khash, idxs) ∈ hashBuckets encoded L := (List.mem_filter.mp hkv).1
  have hbucket := groupByKey_spec (fun p => (windowHashList encoded L).getD p 0)
    (List.range (encoded.length - L + 1)) (List.nodup_range _) khash idxs hkvbucket
  obtain ⟨key, hkey⟩ : ∃ key, (key, occs) ∈
      groupByKey (fun idx => (encoded.drop idx).take L) idxs := by
    obtain ⟨⟨k', v'⟩, hmem, heq⟩ := List.mem_map.mp hocc
    exact ⟨k', by rw [show v' = occs from heq] at hmem; exact hmem⟩
  have hsub := groupByKey_spec (fun idx => (encoded.drop idx).take L) idxs hbucket.1 key occs hkey
  refine ⟨hsub.1, groupByKey_ne_nil _ _ _ _ hkey, ?_, ?_⟩
  · intro x hx
    have hxkv := (hsub.2 x hx).2
    have hmem := (hbucket.2 x hxkv).2
    rw [List.mem_range] at hmem
    omega
  · intro x hx y hy
    exact ((hsub.2 x hx).1).trans ((hsub.2 y hy).1).symm

lemma mem_allCandidates {events : List Event} {mbl Mbl mr : Nat} {tgt : Option Nat}
    {c : BlockInfo × List Int} (h : c ∈ allCandidates events mbl Mbl mr tgt) :
    ∃ L occs,
      L ∈ lengthsTried mbl
        (min Mbl ((encode_kernel_names (events.map Event.kernelName)).1.length / mr)) ∧
      occs ∈ seqGroups (encode_kernel_names (events.map Event.kernelName)).1 mr L ∧
      evalGroup (events.map Event.kernelName) tgt mr L occs = some c := by
  unfold allCandidates at h
  by_cases h1 : (events.map Event.kernelName).isEmpty
  · simp [h1] at h
  · rw [if_neg h1] at h
    by_cases h2 : (encode_kernel_names (events.map Event.kernelName)).1.length < mbl * mr
    · simp [h2] at h
    · rw [if_neg h2] at h
      obtain ⟨L, hL, hc⟩ := List.mem_flatMap.mp h
      obtain ⟨occs, hoccs, heval⟩ := List.mem_filterMap.mp hc
      exact ⟨L, occs, hL, hoccs, heval⟩

lemma find_some_mem {events : List Event} {mbl Mbl mr : Nat} {tgt : Option Nat} {b : BlockInfo}
    (h : find_repeated_block events mbl Mbl mr tgt = some b) :
    ∃ p, (b, p) ∈ allCandidates events mbl Mbl mr tgt := by
  rw [find_eq_bestOfList] at h
  obtain ⟨c, hc, hfst⟩ := Option.map_eq_some'.mp h
  rcases bestOfList_mem _ none c hc with hmem | habs
  · exact ⟨c.2, by rwa [← hfst, Prod.mk.eta]⟩
  · exact absurd habs (by simp)

lemma evalGroup_eq_some {names : List String} {tgt : Option Nat} {mr L : Nat}
    {occs : List Nat} {b : BlockInfo} {p : List Int}
    (h : evalGroup names tgt mr L occs = some (b, p)) :
    b.length = L ∧ b.occurrences = select_non_overlapping occs L ∧
    mr ≤ b.occurrences.length ∧ b.occurrenceCount = b.occurrences.length ∧
    b.score = L * b.occurrences.length ∧
    b.kernelSequence = (names.drop (b.occurrences.headD 0)).take L ∧
    b.targetOccurrences = tgt ∧
    p = mkPriority tgt L b.score b.occurrenceCount := by
  unfold evalGroup at h
  by_cases hlt : (select_non_overlapping occs L).length < mr
  · simp [hlt] at h
  · rw [if_neg hlt] at h
    simp only [Option.some_inj, Prod.mk.injEq] at h
    obtain ⟨hb, hp⟩ := h
    subst hb
    subst hp
    exact ⟨rfl, rfl, Nat.not_lt.mp hlt, rfl, rfl, rfl, rfl, rfl⟩

lemma length_encoded (events : List Event) :
    (encode_kernel_names (events.map Event.kernelName)).1.length = events.length := by
  rw [encode_kernel_names, encodeList_length, List.length_map]

lemma mem_lengthsTried_le {L mbl maxL : Nat} (h : L ∈ lengthsTried mbl maxL) :
    mbl ≤ L ∧ L ≤ maxL := by
  rw [lengthsTried, List.mem_reverse, List.mem_range'_1] at h
  omega

/-- Structure of every block the detector returns: nonempty occurrence list,
at least `min_repeats` occurrences, the count field agrees with the list,
every occurrence fits in the trace, occurrences are strictly increasing and
separated by at least the block length, and all occurrences carry the same
token slice. -/
lemma find_block_structure {events : List Event} {mbl Mbl mr : Nat} {tgt : Option Nat}
    {b : BlockInfo} (h : find_repeated_block events mbl Mbl mr tgt = some b) :
    b.occurrences ≠ [] ∧ mr ≤ b.occurrences.length ∧
    b.occurrenceCount = b.occurrences.length ∧
    b.length ≤ events.length ∧
    (∀ s ∈ b.occurrences, s + b.length ≤ events.length) ∧
    b.occurrences.Pairwise (fun s t => s < t ∧ s + b.length ≤ t) ∧
    (∀ sa ∈ b.occurrences, ∀ sb ∈ b.occurrences,
      ((encode_kernel_names (events.map Event.kernelName)).1.drop sa).take b.length =
      ((encode_kernel_names (events.map Event.kernelName)).1.drop sb).take b.length) := by
  obtain ⟨p, hmem⟩ := find_some_mem h
  obtain ⟨L, occs, hL, hoccs, heval⟩ := mem_allCandidates hmem
  obtain ⟨hlen, hocc, hmr, hcnt, _, _, _, _⟩ := evalGroup_eq_some heval
  obtain ⟨hnodup, hne, hbound, hslice⟩ := mem_seqGroups hoccs
  have hLn : L ≤ events.length := by
    have h1 := (mem_lengthsTried_le hL).2
    have h2 : min Mbl ((encode_kernel_names (events.map Event.kernelName)).1.length / mr) ≤
        (encode_kernel_names (events.map Event.kernelName)).1.length / mr := min_le_right _ _
    have h3 := Nat.div_le_self (encode_kernel_names (events.map Event.kernelName)).1.length mr
    have h4 := length_encoded events
    omega
  have hmemocc : ∀ s ∈ b.occurrences, s ∈ occs := by
    intro s hs
    rw [hocc] at hs
    exact select_non_overlapping_mem hs
  subst hlen
  refine ⟨?_, hmr, hcnt, hLn, ?_, ?_, ?_⟩
  · rw [hocc]
    exact select_non_overlapping_ne_nil _ hne
  · intro s hs
    have h1 := hbound s (hmemocc s hs)
    have h4 := length_encoded events
    omega
  · rw [hocc]
    have h1 := @select_non_overlapping_pairwise_lt occs b.length hnodup
    have h2 := select_non_overlapping_pairwise occs b.length
    exact (h1.and h2).imp (fun hab => ⟨hab.1, hab.2⟩)
  · intro sa hsa sb hsb
    exact hslice sa (hmemocc sa hsa) sb (hmemocc sb hsb)

/-! ### Rolling-hash correctness -/

lemma emod_modeq (x : Int) : x % MOD ≡ x [ZMOD MOD] := Int.emod_emod_of_dvd x dvd_rfl

lemma polyValFrom_eq (w : List Nat) : ∀ (h : Int),
    polyValFrom h w = h * BASE ^ w.length + polyVal w := by
  induction w with
  | nil => intro h; simp [polyValFrom, polyVal]
  | cons t w' ih =>
    intro h
    have h1 : polyValFrom h (t :: w') = polyValFrom (h * BASE + t) w' := rfl
    have h2 : polyVal (t :: w') = polyValFrom ((0 : Int) * BASE + t) w' := rfl
    rw [h1, ih (h * BASE + t), h2]
    rw [show ((0 : Int) * BASE + t) = (t : Int) by ring, ih (t : Int)]
    simp [List.length_cons]
    ring

lemma polyVal_cons (t : Nat) (w : List Nat) :
    polyVal (t :: w) = (t : Int) * BASE ^ w.length + polyVal w := by
  have h2 : polyVal (t :: w) = polyValFrom ((0 : Int) * BASE + t) w := rfl
  rw [h2, show ((0 : Int) * BASE + t) = (t : Int) by ring, polyValFrom_eq]

lemma polyVal_append (w : List Nat) (b : Nat) :
    polyVal (w ++ [b]) = polyVal w * BASE + b := by
  unfold polyVal polyValFrom
  rw [List.foldl_append]
  rfl

lemma foldlMod_eq (w : List Nat) : ∀ (x : Int),
    w.foldl (fun h t => (h * BASE + (t : Int)) % MOD) (x % MOD) = polyValFrom x w % MOD := by
  induction w with
  | nil => intro x; rfl
  | cons t w' ih =>
    intro x
    have hstep : ((x % MOD) * BASE + (t : Int)) % MOD = (x * BASE + (t : Int)) % MOD :=
      ((emod_modeq x).mul_right BASE).add_right (t : Int)
    calc (t :: w').foldl (fun h t => (h * BASE + (t : Int)) % MOD) (x % MOD)
        = w'.foldl (fun h t => (h * BASE + (t : Int)) % MOD) (((x % MOD) * BASE + t) % MOD) := rfl
      _ = w'.foldl (fun h t => (h * BASE + (t : Int)) % MOD) ((x * BASE + t) % MOD) := by
          rw [hstep]
      _ = polyValFrom (x * BASE + t) w' % MOD := ih (x * BASE + (t : Int))
      _ = polyValFrom x (t :: w') % MOD := rfl

lemma initialHash_eq (encoded : List Nat) (L : Nat) :
    initialHash encoded L = polyVal (encoded.take L) % MOD := by
  unfold initialHash polyVal
  rw [show (0 : Int) = 0 % MOD from (Int.zero_emod MOD).symm]
  exact foldlMod_eq (encoded.take L) 0

lemma slice_length {l : List Nat} {t L : Nat} (hb : t + L ≤ l.length) :
    ((l.drop t).take L).length = L := by
  rw [List.length_take, List.length_drop]
  omega

lemma slice_getD {l : List Nat} {t L i : Nat} (hi : i < L) (_hb : t + L ≤ l.length) :
    ((l.drop t).take L).getD i 0 = l.getD (t + i) 0 := by
  rw [List.getD_eq_getElem?_getD, List.getD_eq_getElem?_getD, List.getElem?_take, if_pos hi,
    List.getElem?_drop]

/-- Decompose the window at `s - 1` as outgoing token plus shared middle. -/
lemma slice_cons {encoded : List Nat} {s L : Nat} (hL : 1 ≤ L) (hs : 1 ≤ s)
    (hb : s + L ≤ encoded.length) :
    (encoded.drop (s - 1)).take L =
      encoded.getD (s - 1) 0 :: (encoded.drop s).take (L - 1) := by
  have hlt : s - 1 < encoded.length := by omega
  obtain ⟨L', rfl⟩ : ∃ L', L = L' + 1 := ⟨L - 1, by omega⟩
  rw [List.drop_eq_getElem_cons hlt, List.take_succ_cons]
  rw [show s - 1 + 1 = s by omega, show L' + 1 - 1 = L' by omega,
    List.getD_eq_getElem _ _ hlt]

/-- Decompose the window at `s` as shared middle plus incoming token. -/
lemma slice_snoc {encoded : List Nat} {s L : Nat} (hL : 1 ≤ L)
    (hb : s + L ≤ encoded.length) :
    (encoded.drop s).take L =
      (encoded.drop s).take (L - 1) ++ [encoded.getD (s + L - 1) 0] := by
  obtain ⟨L', rfl⟩ : ∃ L', L = L' + 1 := ⟨L - 1, by omega⟩
  rw [show L' + 1 - 1 = L' by omega, show s + (L' + 1) - 1 = s + L' by omega,
    List.take_succ, List.getElem?_drop]
  have hlt : s + L' < encoded.length := by omega
  rw [List.getElem?_eq_getElem hlt]
  congr 1
  rw [List.getD_eq_getElem _ _ hlt]
  rfl

/-- The rolling update applied to the exact hash of the previous window yields
the exact hash of the shifted window. -/
lemma rollStep_eq {encoded : List Nat} {L s : Nat} (hL : 1 ≤ L) (hs : 1 ≤ s)
    (hb : s + L ≤ encoded.length) :
    rollStep encoded L (BASE ^ (L - 1) % MOD)
        (polyVal ((encoded.drop (s - 1)).take L) % MOD) s =
      polyVal ((encoded.drop s).take L) % MOD := by
  have hmid : ((encoded.drop s).take (L - 1)).length = L - 1 := by
    rw [List.length_take, List.length_drop]
    omega
  have hSprev : polyVal ((encoded.drop (s - 1)).take L) =
      (encoded.getD (s - 1) 0 : Int) * BASE ^ (L - 1) +
        polyVal ((encoded.drop s).take (L - 1)) := by
    rw [slice_cons hL hs hb, polyVal_cons, hmid]
  have hScur : polyVal ((encoded.drop s).take L) =
      polyVal ((encoded.drop s).take (L - 1)) * BASE + (encoded.getD (s + L - 1) 0 : Int) := by
    rw [slice_snoc hL hb, polyVal_append]
  set a : Int := (encoded.getD (s - 1) 0 : Int) with ha
  set c : Int := (encoded.getD (s + L - 1) 0 : Int) with hc
  set w : Int := polyVal ((encoded.drop s).take (L - 1)) with hw
  unfold rollStep
  rw [← ha, ← hc]
  have e1 : (a * (BASE ^ (L - 1) % MOD)) % MOD ≡ a * BASE ^ (L - 1) [ZMOD MOD] :=
    (emod_modeq _).trans ((emod_modeq (BASE ^ (L - 1))).mul_left a)
  have e2 : (polyVal ((encoded.drop (s - 1)).take L) % MOD -
      (a * (BASE ^ (L - 1) % MOD)) % MOD) % MOD ≡ w [ZMOD MOD] := by
    refine (emod_modeq _).trans ?_
    refine ((emod_modeq (polyVal ((encoded.drop (s - 1)).take L))).sub e1).trans ?_
    rw [hSprev, show a * BASE ^ (L - 1) + w - a * BASE ^ (L - 1) = w by ring]
  have e3 : ((polyVal ((encoded.drop (s - 1)).take L) % MOD -
      (a * (BASE ^ (L - 1) % MOD)) % MOD) % MOD) * BASE + c ≡ w * BASE + c [ZMOD MOD] :=
    (e2.mul_right BASE).add_right c
  have : ((polyVal ((encoded.drop (s - 1)).take L) % MOD -
      (a * (BASE ^ (L - 1) % MOD)) % MOD) % MOD * BASE + c) % MOD = (w * BASE + c) % MOD := e3
  rw [this, hScur]

lemma rollHashes_spec {encoded : List Nat} {L : Nat} (hL : 1 ≤ L) :
    ∀ (cnt s : Nat) (h : Int), 1 ≤ s →
    s - 1 + cnt + L ≤ encoded.length →
    h = polyVal ((encoded.drop (s - 1)).take L) % MOD →
    ∀ i, i ≤ cnt →
    (rollHashes encoded L (BASE ^ (L - 1) % MOD) h s cnt).getD i 0 =
      polyVal ((encoded.drop (s - 1 + i)).take L) % MOD := by
  intro cnt
  induction cnt with
  | zero =>
    intro s h hs hb hh i hi
    have : i = 0 := by omega
    subst this
    simpa [rollHashes] using hh
  | succ cnt' ih =>
    intro s h hs hb hh i hi
    cases i with
    | zero => simpa [rollHashes] using hh
    | succ j =>
      have hstep : rollStep encoded L (BASE ^ (L - 1) % MOD) h s =
          polyVal ((encoded.drop s).take L) % MOD := by
        rw [hh]
        exact rollStep_eq hL hs (by omega)
      have hrec := ih (s + 1) (rollStep encoded L (BASE ^ (L - 1) % MOD) h s)
        (by omega) (by omega)
        (by rw [hstep]; rw [show s + 1 - 1 = s by omega]) j (by omega)
      rw [show s + 1 - 1 + j = s - 1 + (j + 1) by omega] at hrec
      simpa [rollHashes] using hrec

/-- Every entry of the rolling-hash scan equals the reduced exact polynomial
hash of its window. -/
lemma windowHashList_getD {encoded : List Nat} {L t : Nat} (hL : 1 ≤ L)
    (hb : t + L ≤ encoded.length) :
    (windowHashList encoded L).getD t 0 = polyVal ((encoded.drop t).take L) % MOD := by
  unfold windowHashList
  have hpow : pythonPowMod BASE ((L : Int) - 1) MOD = BASE ^ (L - 1) % MOD := by
    unfold pythonPowMod
    rw [if_pos (by omega : (0 : Int) ≤ (L : Int) - 1)]
    congr 2
    omega
  rw [hpow]
  have h0 : initialHash encoded L = polyVal ((encoded.drop (1 - 1)).take L) % MOD := by
    rw [initialHash_eq]
    norm_num
  have := rollHashes_spec hL (encoded.length - L) 1 (initialHash encoded L) (by omega)
    (by omega) h0 t (by omega)
  rw [show 1 - 1 + t = t by omega] at this
  exact this

lemma polyVal_eq_sum (w : List Nat) :
    polyVal w = ∑ i ∈ Finset.range w.length, (w.getD i 0 : Int) * BASE ^ (w.length - 1 - i) := by
  induction w with
  | nil => simp [polyVal, polyValFrom]
  | cons t w' ih =>
    rw [polyVal_cons, ih, List.length_cons]
    rw [Finset.sum_range_succ']
    have h1 : ∀ i, ((t :: w').getD (i + 1) 0 : Int) * BASE ^ (w'.length + 1 - 1 - (i + 1)) =
        (w'.getD i 0 : Int) * BASE ^ (w'.length - 1 - i) := by
      intro i
      rw [show (t :: w').getD (i + 1) 0 = w'.getD i 0 from rfl]
      congr 2
      omega
    rw [Finset.sum_congr rfl (fun i _ => h1 i)]
    rw [show ((t :: w').getD 0 0 : Int) * BASE ^ (w'.length + 1 - 1 - 0) =
      (t : Int) * BASE ^ w'.length from by norm_num]
    ring

/-- The window polynomial, written as the claim writes it: a sum over the
original token list. -/
lemma polyVal_slice_eq_sum {l : List Nat} {t L : Nat} (hb : t + L ≤ l.length) :
    polyVal ((l.drop t).take L) =
      ∑ i ∈ Finset.range L, (l.getD (t + i) 0 : Int) * BASE ^ (L - 1 - i) := by
  rw [polyVal_eq_sum, slice_length hb]
  exact Finset.sum_congr rfl (fun i hi => by rw [slice_getD (List.mem_range.mp hi) hb])

/-! ### Further helpers -/

lemma mem_lengthsTried_iff {L mbl maxL : Nat} :
    L ∈ lengthsTried mbl maxL ↔ mbl ≤ L ∧ L ≤ maxL := by
  rw [lengthsTried, List.mem_reverse, List.mem_range'_1]
  omega

lemma lengthsTried_desc (mbl maxL : Nat) :
    (lengthsTried mbl maxL).Pairwise (fun a b => b < a) := by
  rw [lengthsTried, List.pairwise_reverse]
  exact List.pairwise_lt_range' mbl (maxL + 1 - mbl)

lemma filterMap_eq_map_of_some {α β : Type} {f : α → Option β} {g : α → β} :
    ∀ {l : List α}, (∀ x ∈ l, f x = some (g x)) → l.filterMap f = l.map g := by
  intro l
  induction l with
  | nil => intro _; rfl
  | cons x xs ih =>
    intro h
    rw [List.filterMap_cons, h x (List.mem_cons_self x xs), List.map_cons,
      ih (fun y hy => h y (List.mem_cons_of_mem _ hy))]

set_option maxRecDepth 100000

/-! ### The claims -/

/-- C1: on a trace whose kernel-name sequence is three repeats of
`["A", "B", "C"]` followed by one stray `["D"]` (durations arbitrary),
`find_repeated_block` with `min_block_length = 2`, `max_block_length = 3`,
`min_repeats = 2` and no `target_occurrences` returns a candidate with
`length = 3`, `occurrences = [0, 3, 6]` and
`kernel_sequence = ["A", "B", "C"]`. -/
theorem claim1_concrete_abc_trace (events : List Event)
    (h : events.map Event.kernelName =
      ["A", "B", "C", "A", "B", "C", "A", "B", "C", "D"]) :
    (find_repeated_block events 2 3 2 none).map
      (fun b => (b.length, b.occurrences, b.kernelSequence)) =
      some (3, [0, 3, 6], ["A", "B", "C"]) := by
  unfold find_repeated_block
  rw [h]
  decide

theorem claim1_witness :
    evC1.map Event.kernelName = ["A", "B", "C", "A", "B", "C", "A", "B", "C", "D"] ∧
    (find_repeated_block evC1 2 3 2 none).map
      (fun b => (b.length, b.occurrences, b.kernelSequence)) =
      some (3, [0, 3, 6], ["A", "B", "C"]) :=
  ⟨by decide, claim1_concrete_abc_trace evC1 (by decide)⟩

/-- C3: for every non-`None` candidate returned by `find_repeated_block` on a
trace of length `n`, the occurrences list is sorted strictly ascending, every
start `s` satisfies `s + length ≤ n`, and occurrences are pairwise
non-overlapping: any later start is at least `length` after any earlier one. -/
theorem claim3_occurrence_invariants {events : List Event} {mbl Mbl mr : Nat}
    {tgt : Option Nat} {b : BlockInfo}
    (h : find_repeated_block events mbl Mbl mr tgt = some b) :
    b.occurrences.Pairwise (fun s t => s < t) ∧
    (∀ s ∈ b.occurrences, s + b.length ≤ events.length) ∧
    b.occurrences.Pairwise (fun s t => s + b.length ≤ t) := by
  obtain ⟨_, _, _, _, hbound, hpw, _⟩ := find_block_structure h
  exact ⟨hpw.imp (fun hc => hc.1), hbound, hpw.imp (fun hc => hc.2)⟩

theorem claim3_witness :
    find_repeated_block evXY 2 2 2 none = some bXY ∧ 2 + bXY.length ≤ evXY.length :=
  ⟨by decide, (@claim3_occurrence_invariants evXY 2 2 2 none bXY (by decide)).2.1 2 (by decide)⟩

/-- C5: for every finite list of start indices and every block length
`L > 0`, `_select_non_overlapping` (a greedy earliest-start sweep over the
sorted indices) returns a subset of the sorted input that is pairwise
separated by at least `L`, and of maximal size: no subset of the input whose
elements are pairwise separated by at least `L` has more elements. -/
theorem claim5_select_greedy_optimal (indices : List Nat) (L : Nat) (_hL : 0 < L) :
    (select_non_overlapping indices L).Pairwise (fun a b => a + L ≤ b) ∧
    (select_non_overlapping indices L).Sublist (List.insertionSort (· ≤ ·) indices) ∧
    ∀ t : List Nat, t.Sublist (List.insertionSort (· ≤ ·) indices) →
      t.Pairwise (fun a b => a + L ≤ b) →
      t.length ≤ (select_non_overlapping indices L).length :=
  ⟨select_non_overlapping_pairwise indices L, select_non_overlapping_sublist indices L,
   fun t ht hp => selectAux_max L _ (-1) t (List.sorted_insertionSort (· ≤ ·) indices) ht hp
     (fun y _ => by omega)⟩

theorem claim5_witness :
    0 < 2 ∧ ([0, 4] : List Nat).length ≤ (select_non_overlapping [4, 0, 1] 2).length :=
  ⟨by decide,
   (claim5_select_greedy_optimal [4, 0, 1] 2 (by decide)).2.2 [0, 4] (by decide) (by decide)⟩

/-- C9 (counterexample): `block_metadata` on a `None` block does not return a
zero-row table — it returns exactly one `Status` row. -/
theorem claim9_counterexample :
    (block_metadata [] none "trace").rows.length = 1 ∧
    ¬ (block_metadata [] none "trace").rows.length = 0 := by
  constructor <;> decide

/-- C9 (amended): when the detected block is `None`, `summarize_block` returns
an empty table with the documented per-position column names and no rows,
while `block_metadata` returns a table with columns `Metric`, `Value` and a
single `Status` row (not zero rows). -/
theorem claim9_amended (events : List Event) (traceName : String) :
    (summarize_block events none).columns = summaryColumns ∧
    (summarize_block events none).rows = [] ∧
    (block_metadata events none traceName).columns = ["Metric", "Value"] ∧
    (block_metadata events none traceName).rows =
      [("Status", MetaValue.str ("No repeated block (length >= 10) found for " ++ traceName))] :=
  ⟨rfl, rfl, rfl, rfl⟩

/-- C2: for every non-`None` candidate returned by `find_repeated_block` with
length `L`, the kernel-name subsequences at all of its occurrence starts are
identical: for every pair of occurrences `sa`, `sb` and every offset
`j < L`, the name at position `sa + j` equals the name at position `sb + j`;
a hash match alone never produces a candidate whose occurrences differ in
actual tokens, because candidates are grouped by the exact token
subsequence. -/
theorem claim2_token_identical {events : List Event} {mbl Mbl mr : Nat}
    {tgt : Option Nat} {b : BlockInfo}
    (h : find_repeated_block events mbl Mbl mr tgt = some b) :
    ∀ sa ∈ b.occurrences, ∀ sb ∈ b.occurrences, ∀ j < b.length,
      (events.map Event.kernelName)[sa + j]? = (events.map Event.kernelName)[sb + j]? := by
  obtain ⟨_, _, _, _, hbound, _, hslice⟩ := find_block_structure h
  intro sa hsa sb hsb j hj
  have hlen : (encode_kernel_names (events.map Event.kernelName)).1.length = events.length :=
    length_encoded events
  have htok := slice_eq_imp_eq (hslice sa hsa sb hsb) hj
  have hsa' : sa + j < events.length := by have := hbound sa hsa; omega
  have hsb' : sb + j < events.length := by have := hbound sb hsb; omega
  have h1 : sa + j < (encode_kernel_names (events.map Event.kernelName)).1.length := by omega
  have h2 : sb + j < (encode_kernel_names (events.map Event.kernelName)).1.length := by omega
  have h3 : sa + j < (events.map Event.kernelName).length := by
    rw [List.length_map]; exact hsa'
  have h4 : sb + j < (events.map Event.kernelName).length := by
    rw [List.length_map]; exact hsb'
  have hta := List.getElem?_eq_getElem h1
  have htb := List.getElem?_eq_getElem h2
  have hna := List.getElem?_eq_getElem h3
  have hnb := List.getElem?_eq_getElem h4
  have hteq : (encode_kernel_names (events.map Event.kernelName)).1[sa + j] =
      (encode_kernel_names (events.map Event.kernelName)).1[sb + j] := by
    rw [hta, htb] at htok
    exact Option.some_inj.mp htok
  have hn : (events.map Event.kernelName)[sa + j] = (events.map Event.kernelName)[sb + j] :=
    encode_consistent (events.map Event.kernelName) hna hnb hta (by rw [htb, hteq])
  rw [hna, hnb, hn]

theorem claim2_witness :
    find_repeated_block evXY 2 2 2 none = some bXY ∧
    (evXY.map Event.kernelName)[0 + 1]? = (evXY.map Event.kernelName)[2 + 1]? :=
  ⟨by decide,
   (@claim2_token_identical evXY 2 2 2 none bXY (by decide))
     0 (by decide) 2 (by decide) 1 (by decide)⟩

/-- C4: for every token list, candidate length `L ≥ 1` and window start `s`
with `1 ≤ s ≤ n - L`, the code's rolling update
`h' = ((h - token[s-1]*BASE^(L-1)) * BASE + token[s+L-1]) mod 2^64` applied to
the direct polynomial hash of the window at `s - 1` equals the direct
polynomial hash `(Σ token[s+i]*BASE^(L-1-i)) mod 2^64` of the window at `s`;
the scanned hash at `s` equals that direct hash, and consequently equal token
subsequences always receive equal hash values. -/
theorem claim4_rolling_hash_correct (encoded : List Nat) (L s : Nat)
    (hL : 1 ≤ L) (hs : 1 ≤ s) (hb : s + L ≤ encoded.length) :
    rollStep encoded L (BASE ^ (L - 1) % MOD)
        ((∑ i ∈ Finset.range L,
          (encoded.getD (s - 1 + i) 0 : Int) * BASE ^ (L - 1 - i)) % MOD) s =
      (∑ i ∈ Finset.range L, (encoded.getD (s + i) 0 : Int) * BASE ^ (L - 1 - i)) % MOD ∧
    (windowHashList encoded L).getD s 0 =
      (∑ i ∈ Finset.range L, (encoded.getD (s + i) 0 : Int) * BASE ^ (L - 1 - i)) % MOD ∧
    (∀ s₁ s₂ : Nat, s₁ + L ≤ encoded.length → s₂ + L ≤ encoded.length →
      (encoded.drop s₁).take L = (encoded.drop s₂).take L →
      (windowHashList encoded L).getD s₁ 0 = (windowHashList encoded L).getD s₂ 0) := by
  have hb' : (s - 1) + L ≤ encoded.length := by omega
  refine ⟨?_, ?_, ?_⟩
  · rw [← polyVal_slice_eq_sum hb', ← polyVal_slice_eq_sum hb]
    exact rollStep_eq hL hs hb
  · rw [← polyVal_slice_eq_sum hb]
    exact windowHashList_getD hL hb
  · intro s₁ s₂ h₁ h₂ heq
    rw [windowHashList_getD hL h₁, windowHashList_getD hL h₂, heq]

theorem claim4_witness :
    (1 ≤ 2 ∧ 1 ≤ 1 ∧ 1 + 2 ≤ ([1, 2, 1, 2] : List Nat).length) ∧
    (windowHashList [1, 2, 1, 2] 2).getD 1 0 =
      (∑ i ∈ Finset.range 2,
        (([1, 2, 1, 2] : List Nat).getD (1 + i) 0 : Int) * BASE ^ (2 - 1 - i)) % MOD :=
  ⟨⟨by decide, by decide, by decide⟩,
   (claim4_rolling_hash_correct [1, 2, 1, 2] 2 1 (by decide) (by decide) (by decide)).2.1⟩

/-- C8: for every trace shorter than `min_block_length * min_repeats`
(including the empty trace) `find_repeated_block` returns `None`; more
generally (the model is a total function, so no exception is possible) it
returns `None` whenever no verified group at any tried length retains at
least `min_repeats` non-overlapping occurrences. -/
theorem claim8_none_cases (events : List Event) (mbl Mbl mr : Nat) (tgt : Option Nat)
    (_hmr : 2 ≤ mr) :
    (events = [] → find_repeated_block events mbl Mbl mr tgt = none) ∧
    (events.length < mbl * mr → find_repeated_block events mbl Mbl mr tgt = none) ∧
    ((∀ L ∈ lengthsTried mbl (min Mbl (events.length / mr)),
        ∀ occs ∈ seqGroups (encode_kernel_names (events.map Event.kernelName)).1 mr L,
          (select_non_overlapping occs L).length < mr) →
      find_repeated_block events mbl Mbl mr tgt = none) := by
  refine ⟨?_, ?_, ?_⟩
  · intro he
    subst he
    rfl
  · intro hlt
    unfold find_repeated_block findFromNames
    by_cases h1 : (events.map Event.kernelName).isEmpty
    · rw [if_pos h1]
    · rw [if_neg h1, if_pos (by rw [length_encoded]; exact hlt)]
  · intro hall
    rw [find_eq_bestOfList]
    have hnil : allCandidates events mbl Mbl mr tgt = [] := by
      unfold allCandidates
      by_cases h1 : (events.map Event.kernelName).isEmpty
      · rw [if_pos h1]
      · rw [if_neg h1]
        by_cases h2 : (encode_kernel_names (events.map Event.kernelName)).1.length <
            mbl * mr
        · rw [if_pos h2]
        · rw [if_neg h2]
          rw [List.flatMap_eq_nil_iff]
          intro L hL
          unfold candidatesForLength
          rw [List.filterMap_eq_nil_iff]
          intro occs hoccs
          unfold evalGroup
          rw [if_pos]
          refine hall L ?_ occs hoccs
          rw [length_encoded] at hL
          exact hL
    rw [hnil]
    rfl

theorem claim8_witness :
    2 ≤ 2 ∧ find_repeated_block evC8 2 3 2 none = none :=
  ⟨by decide, (claim8_none_cases evC8 2 3 2 none (by decide)).2.1 (by decide)⟩

lemma filterMap_positions {α β : Type} (pos : β → α) (Q : β → Prop) {f : α → Option β} :
    ∀ {l : List α}, (∀ x ∈ l, ∃ y, f x = some y ∧ pos y = x ∧ Q y) →
      (l.filterMap f).map pos = l ∧ ∀ y ∈ l.filterMap f, Q y := by
  intro l
  induction l with
  | nil => intro _; exact ⟨rfl, by simp⟩
  | cons x xs ih =>
    intro h
    obtain ⟨y, hy, hpos, hQ⟩ := h x (List.mem_cons_self x xs)
    obtain ⟨hmap, hall⟩ := ih (fun z hz => h z (List.mem_cons_of_mem _ hz))
    rw [List.filterMap_cons, hy]
    refine ⟨by rw [List.map_cons, hmap, hpos], ?_⟩
    intro z hz
    rcases List.mem_cons.mp hz with rfl | hz
    · exact hQ
    · exact hall z hz

/-- C6: with no `target_occurrences`, the tried candidate lengths are exactly
`min(max_block_length, n / min_repeats)` down to `min_block_length` in
descending order; every valid occurrence set is ranked by the tuple
`(score, length, occurrence_count)` and the returned candidate is the first
enumerated candidate attaining the lexicographically maximal tuple: all
earlier candidates rank strictly below it (so an equal tuple never replaces
it) and no candidate at all ranks strictly above it. -/
theorem claim6_no_target_ranking {events : List Event} {mbl Mbl mr : Nat} {b : BlockInfo}
    (h : find_repeated_block events mbl Mbl mr none = some b) :
    (∀ L : Nat, L ∈ lengthsTried mbl
        (min Mbl ((encode_kernel_names (events.map Event.kernelName)).1.length / mr)) ↔
      mbl ≤ L ∧ L ≤ min Mbl ((encode_kernel_names (events.map Event.kernelName)).1.length / mr)) ∧
    (lengthsTried mbl
      (min Mbl ((encode_kernel_names (events.map Event.kernelName)).1.length / mr))).Pairwise
        (fun a b => b < a) ∧
    ∃ l₁ l₂,
      allCandidates events mbl Mbl mr none =
        l₁ ++ (b, [(b.score : Int), (b.length : Int), (b.occurrenceCount : Int)]) :: l₂ ∧
      (∀ c ∈ l₁,
        priGT [(b.score : Int), (b.length : Int), (b.occurrenceCount : Int)] c.2 = true) ∧
      (∀ c ∈ l₂,
        priGT c.2 [(b.score : Int), (b.length : Int), (b.occurrenceCount : Int)] = false) ∧
      (∀ c ∈ allCandidates events mbl Mbl mr none,
        priGT c.2 [(b.score : Int), (b.length : Int), (b.occurrenceCount : Int)] = false) := by
  refine ⟨fun L => mem_lengthsTried_iff, lengthsTried_desc _ _, ?_⟩
  have hbest := find_eq_bestOfList events mbl Mbl mr none
  rw [h] at hbest
  obtain ⟨c, hc, hfst⟩ := Option.map_eq_some'.mp hbest.symm
  obtain ⟨l₁, l₂, hsplit, h₁, h₂⟩ := bestOfList_none_split _ c hc
  have hcmem : c ∈ allCandidates events mbl Mbl mr none := by
    rw [hsplit]
    exact List.mem_append.mpr (Or.inr (List.mem_cons_self _ _))
  obtain ⟨L, occs, hL, hoccs, heval⟩ := mem_allCandidates hcmem
  obtain ⟨bb, p⟩ := c
  have hbb : bb = b := hfst
  subst hbb
  obtain ⟨hlen, hocc, hmrocc, hcnt, hscore, hks, htgt, hpri⟩ := evalGroup_eq_some heval
  have hp : p = [(bb.score : Int), (bb.length : Int), (bb.occurrenceCount : Int)] := by
    rw [hpri, hlen]
    rfl
  rw [hp] at hsplit h₁ h₂
  refine ⟨l₁, l₂, hsplit, h₁, h₂, ?_⟩
  intro c' hc'
  rw [hsplit] at hc'
  rcases List.mem_append.mp hc' with hmem | hmem
  · exact priGT_asymm (h₁ c' hmem)
  · rcases List.mem_cons.mp hmem with rfl | hmem
    · exact priGT_irrefl _
    · exact h₂ c' hmem

theorem claim6_witness :
    find_repeated_block evXY 2 2 2 none = some bXY ∧
    ∃ l₁ l₂,
      allCandidates evXY 2 2 2 none =
        l₁ ++ (bXY, [(bXY.score : Int), (bXY.length : Int), (bXY.occurrenceCount : Int)]) :: l₂ ∧
      (∀ c ∈ l₁,
        priGT [(bXY.score : Int), (bXY.length : Int), (bXY.occurrenceCount : Int)] c.2 = true) ∧
      (∀ c ∈ l₂,
        priGT c.2 [(bXY.score : Int), (bXY.length : Int), (bXY.occurrenceCount : Int)] = false) ∧
      (∀ c ∈ allCandidates evXY 2 2 2 none,
        priGT c.2 [(bXY.score : Int), (bXY.length : Int), (bXY.occurrenceCount : Int)] = false) :=
  ⟨by decide, (@claim6_no_target_ranking evXY 2 2 2 bXY (by decide)).2.2⟩

/-- C7: with a `target_occurrences` hint the ranking tuple is
`(-|occurrence_count - target|, occurrence_count, length, score)`; any
candidate tuple with count 11 beats any same-length tuple with count 8 when
the target is 10 (diffs 1 versus 2), and on a concrete trace offering exactly
two same-length candidates with counts 11 and 8, the detector selects the
count-11 candidate. -/
theorem claim7_target_ranking :
    (∀ t L score count : Nat, mkPriority (some t) L score count =
      [-((((count : Int) - (t : Int)).natAbs : Int)), (count : Int), (L : Int), (score : Int)]) ∧
    (∀ L s8 s11 : Nat,
      priGT (mkPriority (some 10) L s11 11) (mkPriority (some 10) L s8 8) = true) ∧
    (find_repeated_block evC7 1 1 2 (some 10)).map
      (fun b => (b.length, b.occurrenceCount, b.kernelSequence, b.occurrenceDiff)) =
      some (1, 11, ["A"], some 1) := by
  refine ⟨fun t L score count => rfl, ?_, by decide⟩
  intro L s8 s11
  rfl

/-- C10: every block candidate produced by `find_repeated_block` satisfies
`s + length ≤ len(df)` at every occurrence, so `summarize_block` produces
exactly `length` rows — one per offset `0 .. length-1`, in order — and every
row's `Occurrences` value equals the candidate's `occurrence_count`: the
branches skipping an out-of-range occurrence or dropping an empty-duration
row are unreachable for detector-produced blocks. -/
theorem claim10_summarize_detector_blocks {events : List Event} {mbl Mbl mr : Nat}
    {tgt : Option Nat} {b : BlockInfo} (_hmr : 2 ≤ mr)
    (h : find_repeated_block events mbl Mbl mr tgt = some b) :
    (summarize_block events (some b)).rows.length = b.length ∧
    (summarize_block events (some b)).rows.map (fun r => r.position) = List.range b.length ∧
    ∀ r ∈ (summarize_block events (some b)).rows, r.occurrences = b.occurrenceCount := by
  obtain ⟨hne, hmrocc, hcnt, _, hbound, _, _⟩ := find_block_structure h
  have hkey : ∀ position ∈ List.range b.length,
      ∃ y : SummaryRow,
        (if ((b.occurrences.filter (fun s => decide (s + position < events.length))).map
              (fun s => (events.getD (s + position) ⟨"", 0⟩).duration)).isEmpty then
          (none : Option SummaryRow)
         else some { position := position,
                     kernelName := b.kernelSequence.getD position "",
                     avgDuration := roundTo3 (meanOf
                       ((b.occurrences.filter (fun s => decide (s + position < events.length))).map
                         (fun s => (events.getD (s + position) ⟨"", 0⟩).duration))),
                     medianDuration := roundTo3 (medianOf
                       ((b.occurrences.filter (fun s => decide (s + position < events.length))).map
                         (fun s => (events.getD (s + position) ⟨"", 0⟩).duration))),
                     minDuration := roundTo3 (minOf
                       ((b.occurrences.filter (fun s => decide (s + position < events.length))).map
                         (fun s => (events.getD (s + position) ⟨"", 0⟩).duration))),
                     maxDuration := roundTo3 (maxOf
                       ((b.occurrences.filter (fun s => decide (s + position < events.length))).map
                         (fun s => (events.getD (s + position) ⟨"", 0⟩).duration))),
                     occurrences := ((b.occurrences.filter
                       (fun s => decide (s + position < events.length))).map
                         (fun s => (events.getD (s + position) ⟨"", 0⟩).duration)).length }) =
          some y ∧
        y.position = position ∧ y.occurrences = b.occurrenceCount := by
    intro position hpos
    have hfilter : b.occurrences.filter (fun s => decide (s + position < events.length)) =
        b.occurrences := by
      rw [List.filter_eq_self]
      intro s hs
      have h1 := hbound s hs
      have h2 : position < b.length := List.mem_range.mp hpos
      simp only [decide_eq_true_eq]
      omega
    rw [hfilter]
    rw [if_neg (by simp [hne])]
    refine ⟨_, rfl, rfl, ?_⟩
    rw [List.length_map, hcnt]
  obtain ⟨hmap, hall⟩ := filterMap_positions (fun r : SummaryRow => r.position)
    (fun r : SummaryRow => r.occurrences = b.occurrenceCount) hkey
  refine ⟨?_, hmap, hall⟩
  have hlen := congrArg List.length hmap
  rw [List.length_map, List.length_range] at hlen
  exact hlen

theorem claim10_witness :
    2 ≤ 2 ∧ (summarize_block evXY (some bXY)).rows.length = bXY.length :=
  ⟨by decide, (@claim10_summarize_detector_blocks evXY 2 2 2 none bXY (by decide) (by decide)).1⟩
